import Mathlib

/-!
Verification of the dependency-graph engine of `package_analyzer.py`
(final snapshot, "fifth step"): the graph builder
`build_dependency_graph_bfs`, the load-order resolver
`calculate_load_order`, the tree renderer `print_ascii_tree` and the
graph-description renderer `generate_graphviz_dot`.

The shallow embedding keeps the Python names.  The mutable analyzer
attributes touched by these methods become the fields of
`AnalyzerState`; Python's `defaultdict(list)` dependency graph becomes
an insertion-ordered association list; the `set` of packages becomes an
insertion-ordered duplicate-free list; the dependency source
(`get_direct_dependencies`) becomes an explicit function returning
`Except`, since the Python call can raise and the builder catches the
exception.  Printed diagnostics (the cycle message and the per-package
error message) are recorded structurally in the state.  The recursion of
the builder is driven by a fuel argument; the top-level run supplies
`max_depth` units of fuel, which is exactly enough because every
recursive call increases `current_depth` by one and the body returns as
soon as `current_depth` reaches `max_depth`.
-/

/-- The analyzer attributes read or written by the graph builder, the
load-order resolver and the renderers (`self.dependency_graph`,
`self.all_packages`, `self.cycle_detected`, `self.load_order`), plus the
diagnostics the builder prints (`cycle_reports` for the cycle message of
line 198, `error_reports` for the per-package error message of line
214). -/
structure AnalyzerState where
  dependency_graph : List (String × List (String × String))
  all_packages : List String
  cycle_detected : Bool
  cycle_reports : List (List String)
  error_reports : List (String × String)
  load_order : List String
deriving DecidableEq, Repr

/-- The freshly constructed analyzer (`__init__`): empty graph, empty
package set, no cycle, no diagnostics, no load order. -/
def initialState : AnalyzerState :=
  { dependency_graph := []
    all_packages := []
    cycle_detected := false
    cycle_reports := []
    error_reports := []
    load_order := [] }

/-- `self.dependency_graph[src].append(e)` on a `defaultdict(list)`:
append `e` to the entry of `src`, creating the entry (at the end, in
insertion order) if absent. -/
def graphAppend (g : List (String × List (String × String))) (src : String)
    (e : String × String) : List (String × List (String × String)) :=
  match g with
  | [] => [(src, [e])]
  | (k, es) :: rest =>
      if k = src then (k, es ++ [e]) :: rest
      else (k, es) :: graphAppend rest src e

/-- `self.dependency_graph.get(u, [])`: the edge list of `u`, `[]` when
`u` has no entry. -/
def graphGet (g : List (String × List (String × String))) (u : String) :
    List (String × String) :=
  match g with
  | [] => []
  | (k, es) :: rest => if k = u then es else graphGet rest u

/-- `s.add(x)` on a Python `set`, modelled as an insertion-ordered
duplicate-free list: append `x` if not already present. -/
def setAdd (s : List String) (x : String) : List String :=
  if x ∈ s then s else s ++ [x]

/-- One level of `build_dependency_graph_bfs` (lines 189-214), with the
recursive call abstracted as `recur`.  Checks the depth bound first,
then the cycle bound (printing the cyclic path and setting the flag),
then adds the package to `all_packages`, obtains its direct
dependencies from the source, and for each `(dep_package, version)`
appends the edge, adds the dependency to `all_packages`, and recurses at
`current_depth + 1` with `path + [start_package]`.  A source failure is
caught: the error is reported and the branch stops. -/
def build_go (fetch : String → Except String (List (String × String)))
    (max_depth : Nat)
    (recur : String → Nat → List String → AnalyzerState → AnalyzerState)
    (start_package : String) (current_depth : Nat) (path : List String)
    (st : AnalyzerState) : AnalyzerState :=
  if max_depth ≤ current_depth then st
  else if start_package ∈ path then
    { st with cycle_detected := true
              cycle_reports := st.cycle_reports ++ [path ++ [start_package]] }
  else
    let current_path := path ++ [start_package]
    let st1 := { st with all_packages := setAdd st.all_packages start_package }
    match fetch start_package with
    | Except.error msg =>
        { st1 with error_reports := st1.error_reports ++ [(start_package, msg)] }
    | Except.ok deps =>
        deps.foldl (fun s dv =>
          let s1 :=
            { s with
                dependency_graph := graphAppend s.dependency_graph start_package dv
                all_packages := setAdd s.all_packages dv.1 }
          recur dv.1 (current_depth + 1) current_path s1) st1

/-- `build_dependency_graph_bfs`, fuelled: at fuel `0` the children are
not expanded (never reached from `runBuilder`, whose fuel equals
`max_depth`: the depth check fires first). -/
def build_dependency_graph_bfs
    (fetch : String → Except String (List (String × String)))
    (max_depth : Nat) :
    Nat → String → Nat → List String → AnalyzerState → AnalyzerState
  | 0 => build_go fetch max_depth (fun _ _ _ s => s)
  | fuel + 1 => build_go fetch max_depth (build_dependency_graph_bfs fetch max_depth fuel)

/-- The top-level builder call of `run()`:
`self.build_dependency_graph_bfs(start_package)` with default
`current_depth = 0`, `path = []`, on a fresh state. -/
def runBuilder (fetch : String → Except String (List (String × String)))
    (max_depth : Nat) (start_package : String) : AnalyzerState :=
  build_dependency_graph_bfs fetch max_depth max_depth start_package 0 [] initialState

/-- First-occurrence deduplication, the key order of a Python dict
comprehension over a list. -/
def distinctKeys (l : List String) : List String :=
  l.foldl (fun acc d => if d ∈ acc then acc else acc ++ [d]) []

/-- Association-list lookup with default, `test_data.get(name, [])`. -/
def fixtureGet (repo : List (String × List String)) (name : String) : List String :=
  match repo with
  | [] => []
  | (k, v) :: rest => if k = name then v else fixtureGet rest name

/-- The fixture-backed dependency source (`get_direct_dependencies` in
`--test-repo` mode, lines 181-184): the fixture's list for the package
(missing packages yield `[]`), each dependency paired with the wildcard
constraint `"*"` (`{dep: "*" for dep in dependencies}`). -/
def fixtureFetch (repo : List (String × List String)) :
    String → Except String (List (String × String)) :=
  fun name => Except.ok ((distinctKeys (fixtureGet repo name)).map (fun d => (d, "*")))

/-!
## The load-order resolver

`calculate_load_order` (lines 216-242).  The `in_degree` dictionary is a
`defaultdict(int)`, modelled as a total function `String → Int` (absent
keys read as `0`, so the loop of lines 225-227 that stores an explicit
`0` for nodes not yet present is a semantic no-op and needs no separate
step).  The `while queue` loop is fuelled; `all_nodes.length +
totalEdges + 1` units always suffice, because each iteration pops one
element and, as every node's in-degree only ever decreases, each node is
enqueued at most once by the seed and at most once by a decrement
reaching zero.
-/

/-- One pass of the inner `for neighbor, _ in
self.dependency_graph.get(current, [])` loop: decrement the neighbour's
in-degree and enqueue it when the result is exactly `0`. -/
def process_neighbors :
    (String → Int) → List String → List (String × String) →
    (String → Int) × List String
  | in_degree, queue, [] => (in_degree, queue)
  | in_degree, queue, (neighbor, _) :: rest =>
      let d := in_degree neighbor - 1
      let in_degree2 := fun w => if w = neighbor then d else in_degree w
      let queue2 := if d = 0 then queue ++ [neighbor] else queue
      process_neighbors in_degree2 queue2 rest

/-- The `while queue` loop of Kahn's algorithm: pop the head, append it
to the load order, process its neighbours.  Returns the final
`(in_degree, queue, load_order)`. -/
def kahn_loop (g : List (String × List (String × String))) :
    Nat → (String → Int) → List String → List String →
    (String → Int) × List String × List String
  | 0, in_degree, queue, load_order => (in_degree, queue, load_order)
  | fuel + 1, in_degree, queue, load_order =>
      match queue with
      | [] => (in_degree, [], load_order)
      | current :: rest =>
          let load_order2 := load_order ++ [current]
          let p := process_neighbors in_degree rest (graphGet g current)
          kahn_loop g fuel p.1 p.2 load_order2

/-- The in-degree table built by the nested loop of lines 221-223: for
every entry of the graph and every `(dep, _)` in its edge list,
increment `in_degree[dep]`. -/
def computeInDeg (g : List (String × List (String × String))) : String → Int :=
  g.foldl
    (fun acc entry =>
      entry.2.foldl
        (fun acc2 dv => fun w => if w = dv.1 then acc2 dv.1 + 1 else acc2 w)
        acc)
    (fun _ => 0)

/-- Total number of recorded edges, used only to size the loop fuel. -/
def totalEdges (g : List (String × List (String × String))) : Nat :=
  (g.map (fun e => e.2.length)).sum

/-- `calculate_load_order` up to its final state: seed the queue with
the members of `all_nodes` whose in-degree is zero (in set-iteration
order, here the insertion order of `all_packages`), then drain.  The
first component is the final in-degree table, the second the final
queue (always `[]`: the fuel suffices), the third the computed load
order. -/
def kahn_run (g : List (String × List (String × String)))
    (all_nodes : List String) :
    (String → Int) × List String × List String :=
  let in_degree := computeInDeg g
  let queue := all_nodes.filter (fun n => in_degree n = 0)
  kahn_loop g (all_nodes.length + totalEdges g + 1) in_degree queue []

/-- `calculate_load_order` as the pure function of the state it reads
(`self.dependency_graph` and `self.all_packages`): the returned
`load_order` list. -/
def calculate_load_order (g : List (String × List (String × String)))
    (all_nodes : List String) : List String :=
  (kahn_run g all_nodes).2.2

/-- `calculate_load_order` as the state transformer it is in the class:
it reads `dependency_graph` and `all_packages`, stores the result in
`self.load_order` and also returns it. -/
def calculate_load_order_step (st : AnalyzerState) : AnalyzerState × List String :=
  let lo := calculate_load_order st.dependency_graph st.all_packages
  ({ st with load_order := lo }, lo)

/-!
## The renderers
-/

/-- One level of `print_ascii_tree` (lines 288-314) for a non-root-call
invocation (`current_node` already set), with the recursive call
abstracted as `recur`; returns the printed lines.  The connector is
`└── ` for a last child and `├── ` otherwise; children extend the
prefix with four spaces or a bar.  Note `_version_info` (line 313): the
source computes it and never uses it — the printed label is only
`prefix + connector + node`. -/
def print_ascii_tree_go (g : List (String × List (String × String)))
    (recur : String → String → Bool → List String)
    (current_node : String) (pfx : String) (is_last : Bool) : List String :=
  let connector := if is_last then "└── " else "├── "
  let line := pfx ++ connector ++ current_node
  let dependencies := graphGet g current_node
  if dependencies = [] then [line]
  else
    let child_pfx := pfx ++ (if is_last then "    " else "│   ")
    line ::
      (dependencies.enum.foldl
        (fun acc idv =>
          let is_last_child := idv.1 = dependencies.length - 1
          let _version_info :=
            if idv.2.2 ≠ "*" then " (" ++ idv.2.2 ++ ")" else ""
          acc ++ recur idv.2.1 child_pfx is_last_child)
        [])

/-- `print_ascii_tree`, fuelled (the source recursion follows graph
edges and is unbounded on cyclic graphs). -/
def print_ascii_tree (g : List (String × List (String × String))) :
    Nat → String → String → Bool → List String
  | 0 => print_ascii_tree_go g (fun _ _ _ => [])
  | fuel + 1 => print_ascii_tree_go g (print_ascii_tree g fuel)

/-- The root call `self.print_ascii_tree(start_package)`: after the
header, the recursion starts at the start package with empty prefix and
`is_last = True`. -/
def render_ascii_tree (g : List (String × List (String × String)))
    (fuel : Nat) (start_package : String) : List String :=
  print_ascii_tree g fuel start_package "" true

/-- The node-declaration line of the start package (line 261). -/
def dotStartDecl (p : String) : String :=
  "    \"" ++ p ++ "\" [fillcolor=orange, style=\"filled,bold\"];"

/-- The node-declaration line of a non-start package (line 266). -/
def dotNodeDecl (p : String) : String :=
  "    \"" ++ p ++ "\";"

/-- The edge line of line 274. -/
def dotEdgeLine (source target version : String) : String :=
  "    \"" ++ source ++ "\" -> \"" ++ target ++ "\" [label=\"" ++ version ++ "\"];"

/-- The node-declaration block of `generate_graphviz_dot` (lines
260-266): the start package with its distinct fill attribute, then
every other member of `all_packages` as a plain declaration. -/
def graphvizNodeLines (all_packages : List String) (start_package : String) :
    List String :=
  dotStartDecl start_package ::
    (all_packages.filter (fun p => p ≠ start_package)).map dotNodeDecl

/-- The package names declared by the node block, in emission order. -/
def graphvizDeclaredNames (all_packages : List String) (start_package : String) :
    List String :=
  start_package :: all_packages.filter (fun p => p ≠ start_package)

/-- The edge block (lines 271-274). -/
def graphvizEdgeLines (g : List (String × List (String × String))) :
    List String :=
  g.foldl (fun acc entry =>
    acc ++ entry.2.map (fun dv => dotEdgeLine entry.1 dv.1 dv.2)) []

/-- `generate_graphviz_dot` (lines 244-286): the full DOT text as its
list of lines. -/
def generate_graphviz_dot (st : AnalyzerState) (max_depth : Nat)
    (start_package : String) : List String :=
  ["digraph DependencyGraph \x7b",
   "    rankdir=TB;",
   "    node [shape=box, style=filled, fillcolor=lightblue];",
   "    edge [color=darkgreen];",
   "",
   "    // Граф зависимостей для пакета \"" ++ start_package ++ "\"",
   "    // Глубина анализа: " ++ toString max_depth,
   "    // Всего пакетов: " ++ toString st.all_packages.length,
   ""]
  ++ graphvizNodeLines st.all_packages start_package
  ++ [""]
  ++ ["    // Зависимости между пакетами"]
  ++ graphvizEdgeLines st.dependency_graph
  ++ (if st.cycle_detected then
        ["", "    // Циклические зависимости", "    edge [color=red, style=bold];"]
      else [])
  ++ ["\x7d"]

/-- A package occurring as the source of some recorded edge. -/
def isEdgeSource (g : List (String × List (String × String))) (x : String) : Prop :=
  ∃ e ∈ g, e.1 = x ∧ e.2 ≠ []

/-- A package occurring as the target of some recorded edge. -/
def isEdgeTarget (g : List (String × List (String × String))) (x : String) : Prop :=
  ∃ e ∈ g, ∃ dv ∈ e.2, dv.1 = x

instance (g : List (String × List (String × String))) (x : String) :
    Decidable (isEdgeSource g x) := by
  unfold isEdgeSource
  infer_instance

instance (g : List (String × List (String × String))) (x : String) :
    Decidable (isEdgeTarget g x) := by
  unfold isEdgeTarget
  infer_instance

/-!
## Helper lemmas about the builder
-/

/-- Termination rule 1 of the builder: at `current_depth ≥ max_depth`
the call returns its state unchanged, at every fuel. -/
theorem build_depth_stop (fetch : String → Except String (List (String × String)))
    (max_depth fuel : Nat) (pkg : String) (depth : Nat) (path : List String)
    (st : AnalyzerState) (h : max_depth ≤ depth) :
    build_dependency_graph_bfs fetch max_depth fuel pkg depth path st = st := by
  cases fuel <;> simp [build_dependency_graph_bfs, build_go, h]

/-- Termination rule 2 of the builder: a package already on the path
sets the flag, reports the cyclic path, and changes nothing else, at
every fuel. -/
theorem build_cycle_stop (fetch : String → Except String (List (String × String)))
    (max_depth fuel : Nat) (pkg : String) (depth : Nat) (path : List String)
    (st : AnalyzerState) (hd : depth < max_depth) (hp : pkg ∈ path) :
    build_dependency_graph_bfs fetch max_depth fuel pkg depth path st =
      { st with cycle_detected := true
                cycle_reports := st.cycle_reports ++ [path ++ [pkg]] } := by
  cases fuel <;> simp [build_dependency_graph_bfs, build_go, Nat.not_le.mpr hd, hp]

/-- A failing dependency-source call: the package is still added to
`all_packages`, the error is reported, and nothing else changes, at
every fuel. -/
theorem build_error_stop (fetch : String → Except String (List (String × String)))
    (max_depth fuel : Nat) (pkg : String) (depth : Nat) (path : List String)
    (st : AnalyzerState) (msg : String) (hd : depth < max_depth)
    (hp : pkg ∉ path) (hf : fetch pkg = Except.error msg) :
    build_dependency_graph_bfs fetch max_depth fuel pkg depth path st =
      { st with all_packages := setAdd st.all_packages pkg
                error_reports := st.error_reports ++ [(pkg, msg)] } := by
  cases fuel <;> simp [build_dependency_graph_bfs, build_go, Nat.not_le.mpr hd, hp, hf]

/-- Appending an edge to a one-entry graph extends that entry. -/
theorem graphAppend_single (start : String) (acc : List (String × String))
    (dv : String × String) :
    graphAppend [(start, acc)] start dv = [(start, acc ++ [dv])] := by
  simp [graphAppend]

/-- The edge-recording fold of a `max_depth = 1` run, after the
recursive calls (all at depth `1 ≥ max_depth`) have been rewritten
away: it extends the single graph entry of the start package by the
dependency list. -/
theorem foldl_record_graph (start : String) :
    ∀ (deps : List (String × String)) (acc : List (String × String))
      (s : AnalyzerState),
      s.dependency_graph = [(start, acc)] →
      (deps.foldl (fun s dv =>
          { s with
              dependency_graph := graphAppend s.dependency_graph start dv
              all_packages := setAdd s.all_packages dv.1 }) s).dependency_graph
        = [(start, acc ++ deps)]
  | [], acc, s, hs => by simpa using hs
  | dv :: ds, acc, s, hs => by
      rw [List.foldl_cons]
      rw [foldl_record_graph start ds (acc ++ [dv]) _ (by simp [hs, graphAppend_single])]
      simp

/-- The fuel-`0` builder applied at depth `0 + 1 ≥ 1` is the
identity. -/
theorem build_fuel0_depth1 (fetch : String → Except String (List (String × String)))
    (d : String) (p : List String) (s : AnalyzerState) :
    build_dependency_graph_bfs fetch 1 0 d (0 + 1) p s = s :=
  build_depth_stop fetch 1 0 d (0 + 1) p s (by omega)

/-- With `max_depth = 1` and a successful source call for the start
package, the built graph holds exactly the start package's direct
edges: one entry carrying the returned dependency list (no entry at all
when it is empty), and in particular no grandchild edges. -/
theorem build_maxdepth_one (fetch : String → Except String (List (String × String)))
    (start : String) (deps : List (String × String))
    (hf : fetch start = Except.ok deps) :
    (runBuilder fetch 1 start).dependency_graph =
      if deps = [] then [] else [(start, deps)] := by
  unfold runBuilder
  rw [show build_dependency_graph_bfs fetch 1 1
        = build_go fetch 1 (build_dependency_graph_bfs fetch 1 0) from rfl]
  simp only [build_go, hf]
  rw [if_neg (by omega), if_neg (by simp)]
  simp only [build_fuel0_depth1 fetch]
  match deps with
  | [] => simp [initialState]
  | dv :: ds =>
      rw [if_neg (by simp)]
      rw [List.foldl_cons]
      rw [foldl_record_graph start ds [dv] _ (by simp [initialState, graphAppend])]
      simp

/-!
## Claim theorems: builder behaviour
-/

/-- The two-package cyclic fixture `{A: [B]}, {B: [A]}` of the spec's
cycle scenario. -/
def cycleRepo : List (String × List String) := [("A", ["B"]), ("B", ["A"])]

/-- C1, counterexample: the claim says the edge closing the cycle is
never recorded and the built graph for fixture `{A: [B]}, {B: [A]}`
with `maxDepth = 5` contains no `B → A` edge.  In fact the builder
appends each edge before the recursive call that performs the cycle
check, so the run stores the closing edge: the graph entry of `B` is
exactly `[("A", "*")]`. -/
theorem claim_C1_counterexample :
    graphGet (runBuilder (fixtureFetch cycleRepo) 5 "A").dependency_graph "B"
      = [("A", "*")] := by decide

/-- C1, amended: on fixture `{A: [B]}, {B: [A]}` with `maxDepth = 5`
the builder detects and reports the cycle `A -> B -> A` and sets the
Cycle Flag, and it stops expanding at the repeated package, but the
edge closing the cycle is recorded: the stored graph holds both
`A → B` and `B → A`, so it is not a tree-shaped expansion. -/
theorem claim_C1_amended :
    runBuilder (fixtureFetch cycleRepo) 5 "A" =
      { dependency_graph := [("A", [("B", "*")]), ("B", [("A", "*")])]
        all_packages := ["A", "B"]
        cycle_detected := true
        cycle_reports := [["A", "B", "A"]]
        error_reports := []
        load_order := [] } := by decide

/-- C4: a call of the builder on a package already on the current
traversal path (and below the depth bound, which the source checks
first) sets the Cycle Flag, reports the full cyclic path
`path + [package]`, and returns with every other state component —
in particular the dependency graph — unchanged: no edge is appended by
this call and no recursion happens. -/
theorem claim_C4_cycle_call
    (fetch : String → Except String (List (String × String)))
    (max_depth fuel : Nat) (pkg : String) (depth : Nat) (path : List String)
    (st : AnalyzerState) (hd : depth < max_depth) (hp : pkg ∈ path) :
    build_dependency_graph_bfs fetch max_depth fuel pkg depth path st =
      { st with cycle_detected := true
                cycle_reports := st.cycle_reports ++ [path ++ [pkg]] } :=
  build_cycle_stop fetch max_depth fuel pkg depth path st hd hp

/-- Witness for C4 at a concrete call: package `B` at depth `2` with
path `[A, B]`. -/
theorem claim_C4_cycle_call_witness :
    build_dependency_graph_bfs (fixtureFetch cycleRepo) 3 3 "B" 2 ["A", "B"]
        initialState =
      { initialState with cycle_detected := true
                          cycle_reports := [["A", "B", "B"]] } := by
  simpa using claim_C4_cycle_call (fixtureFetch cycleRepo) 3 3 "B" 2 ["A", "B"]
    initialState (by omega) (by decide)

/-- C5: (1) any call of the builder with `depth ≥ maxDepth` returns its
state unchanged — nothing is fetched or recorded for that branch; (2)
consequently with `maxDepth = 1` and a successful source call for the
start package, the built graph holds only the start package's direct
edges (the returned dependency list, as the single graph entry) and no
grandchild edges. -/
theorem claim_C5_depth_bound :
    (∀ (fetch : String → Except String (List (String × String)))
       (max_depth fuel : Nat) (pkg : String) (depth : Nat) (path : List String)
       (st : AnalyzerState), max_depth ≤ depth →
       build_dependency_graph_bfs fetch max_depth fuel pkg depth path st = st) ∧
    (∀ (fetch : String → Except String (List (String × String)))
       (start : String) (deps : List (String × String)),
       fetch start = Except.ok deps →
       (runBuilder fetch 1 start).dependency_graph =
         if deps = [] then [] else [(start, deps)]) :=
  ⟨build_depth_stop, build_maxdepth_one⟩

/-- A fixture with depth-2 dependencies (`B` depends on `D`), used to
witness that `maxDepth = 1` records no grandchildren. -/
def deepRepo : List (String × List String) :=
  [("A", ["B", "C"]), ("B", ["D"])]

/-- Witness for C5: a depth-bounded call at depth `5 ≥ 3` is the
identity, and a `maxDepth = 1` run on a fixture with depth-2
dependencies records only the start package's direct edges. -/
theorem claim_C5_depth_bound_witness :
    build_dependency_graph_bfs (fixtureFetch deepRepo) 3 0 "A" 5 [] initialState
        = initialState ∧
    (runBuilder (fixtureFetch deepRepo) 1 "A").dependency_graph
        = [("A", [("B", "*"), ("C", "*")])] :=
  ⟨claim_C5_depth_bound.1 (fixtureFetch deepRepo) 3 0 "A" 5 [] initialState
      (by omega),
   by simpa using (claim_C5_depth_bound.2 (fixtureFetch deepRepo) "A"
      [("B", "*"), ("C", "*")] rfl)⟩

/-- A dependency source whose lookup of `B` fails while `A` and `C`
succeed, mirroring a registry failure for one package. -/
def failingSource : String → Except String (List (String × String)) :=
  fun p =>
    if p = "B" then Except.error "Пакет не найден в репозитории"
    else fixtureFetch [("A", ["B", "C"]), ("C", ["D"])] p

/-- C7: (1) a failing dependency-source lookup is absorbed inside that
package's builder call: the package is still recorded in
`all_packages`, a diagnostic naming the package and the error is
emitted, and the graph, the cycle flag and everything else are
unchanged — the branch simply stops; (2) the failure does not
propagate: in a run where `B`'s lookup fails, the sibling `C` and its
child `D` are still expanded and `A`'s edges are intact. -/
theorem claim_C7_error_isolation :
    (∀ (fetch : String → Except String (List (String × String)))
       (max_depth fuel : Nat) (pkg : String) (depth : Nat) (path : List String)
       (st : AnalyzerState) (msg : String), depth < max_depth → pkg ∉ path →
       fetch pkg = Except.error msg →
       build_dependency_graph_bfs fetch max_depth fuel pkg depth path st =
         { st with all_packages := setAdd st.all_packages pkg
                   error_reports := st.error_reports ++ [(pkg, msg)] }) ∧
    ((runBuilder failingSource 3 "A").dependency_graph =
        [("A", [("B", "*"), ("C", "*")]), ("C", [("D", "*")])] ∧
     (runBuilder failingSource 3 "A").error_reports =
        [("B", "Пакет не найден в репозитории")] ∧
     (runBuilder failingSource 3 "A").cycle_detected = false) :=
  ⟨build_error_stop, by decide⟩

/-- Witness for C7: the failing call on `B` at depth `1`, path `[A]`,
from a fresh state. -/
theorem claim_C7_error_isolation_witness :
    build_dependency_graph_bfs failingSource 3 2 "B" 1 ["A"] initialState =
      { initialState with
          all_packages := ["B"]
          error_reports := [("B", "Пакет не найден в репозитории")] } := by
  simpa using claim_C7_error_isolation.1 failingSource 3 2 "B" 1 ["A"]
    initialState "Пакет не найден в репозитории" (by omega) (by decide) rfl

/-!
## Claim theorems: resolver behaviour (concrete and algebraic)
-/

/-- The three-package fixture `{A: [B, C], B: [], C: [B]}` of the
spec's load-order scenario. -/
def diamondRepo : List (String × List String) :=
  [("A", ["B", "C"]), ("B", []), ("C", ["B"])]

/-- C6: on fixture `{A: [B, C], B: [], C: [B]}` with `maxDepth = 3` and
start package `A`, the built graph holds exactly the edges `A → B`,
`A → C` and `C → B` (entries `A` and `C`; `B`, having no dependencies,
gets no entry), and the load order computed from that graph and the
recorded package set is `[A, C, B]`. -/
theorem claim_C6_scenario :
    (runBuilder (fixtureFetch diamondRepo) 3 "A").dependency_graph =
        [("A", [("B", "*"), ("C", "*")]), ("C", [("B", "*")])] ∧
    (runBuilder (fixtureFetch diamondRepo) 3 "A").all_packages = ["A", "B", "C"] ∧
    calculate_load_order
        (runBuilder (fixtureFetch diamondRepo) 3 "A").dependency_graph
        (runBuilder (fixtureFetch diamondRepo) 3 "A").all_packages
      = ["A", "C", "B"] := by decide

/-- C8: `calculate_load_order` is idempotent and deterministic as a
state transformer: it reads only `dependency_graph` and `all_packages`
and writes only `load_order`, so running it a second time on the
resulting state returns the same sequence, and the graph and package
set are untouched by the first run. -/
theorem claim_C8_idempotent (st : AnalyzerState) :
    (calculate_load_order_step ((calculate_load_order_step st).1)).2 =
        (calculate_load_order_step st).2 ∧
    ((calculate_load_order_step st).1).dependency_graph = st.dependency_graph ∧
    ((calculate_load_order_step st).1).all_packages = st.all_packages ∧
    ((calculate_load_order_step st).1).load_order = (calculate_load_order_step st).2 :=
  ⟨rfl, rfl, rfl, rfl⟩

/-- Witness for C8 at the state built from the load-order fixture. -/
theorem claim_C8_idempotent_witness :
    (calculate_load_order_step
        ((calculate_load_order_step (runBuilder (fixtureFetch diamondRepo) 3 "A")).1)).2 =
      (calculate_load_order_step (runBuilder (fixtureFetch diamondRepo) 3 "A")).2 ∧
    ((calculate_load_order_step (runBuilder (fixtureFetch diamondRepo) 3 "A")).1).dependency_graph =
      (runBuilder (fixtureFetch diamondRepo) 3 "A").dependency_graph ∧
    ((calculate_load_order_step (runBuilder (fixtureFetch diamondRepo) 3 "A")).1).all_packages =
      (runBuilder (fixtureFetch diamondRepo) 3 "A").all_packages ∧
    ((calculate_load_order_step (runBuilder (fixtureFetch diamondRepo) 3 "A")).1).load_order =
      (calculate_load_order_step (runBuilder (fixtureFetch diamondRepo) 3 "A")).2 :=
  claim_C8_idempotent (runBuilder (fixtureFetch diamondRepo) 3 "A")

/-!
## Claim theorems: renderers (concrete)
-/

/-- C3 (code bug): on the graph with the single edge `A → B` carrying
the non-wildcard constraint `"^1.0.0"`, the rendered tree is exactly
`["└── A", "    └── B"]`: the constraint is never appended to the
label.  The source computes the parenthesised `version_info` string at
line 313 — with exactly the claimed omit-`"*"` rule — but never uses
it; the printed line (line 299) is only prefix, connector and node
name. -/
theorem claim_C3_version_dropped :
    render_ascii_tree [("A", [("B", "^1.0.0")])] 10 "A"
      = ["└── A", "    └── B"] := by decide

/-!
## Counting groundwork for the resolver proofs

`cntv es v` counts the edges of one edge list that point at `v`;
`initInDeg g v` is the total number of edges of the whole graph
pointing at `v` (the value the in-degree table of lines 221-223
assigns); `sumCnt g l v` counts the edges into `v` whose source has
already been popped, when `l` is the list of popped nodes.
-/

/-- Number of pairs in `es` whose target is `v`. -/
def cntv (es : List (String × String)) (v : String) : Nat :=
  (es.map Prod.fst).count v

/-- Total number of edges of `g` whose target is `v`. -/
def initInDeg (g : List (String × List (String × String))) (v : String) : Nat :=
  (g.map (fun e => cntv e.2 v)).sum

/-- Number of edges into `v` whose source is listed in `l` (sources
without a graph entry contribute nothing, like `dict.get(u, [])`). -/
def sumCnt (g : List (String × List (String × String))) (l : List String)
    (v : String) : Nat :=
  (l.map (fun u => cntv (graphGet g u) v)).sum

/-- The keys of the graph, in entry order. -/
def graphKeys (g : List (String × List (String × String))) : List String :=
  g.map Prod.fst

theorem graphKeys_cons (k : String) (es : List (String × String))
    (rest : List (String × List (String × String))) :
    graphKeys ((k, es) :: rest) = k :: graphKeys rest := rfl

theorem graphGet_eq_nil_of_not_mem_keys (g : List (String × List (String × String)))
    (u : String) (h : u ∉ graphKeys g) : graphGet g u = [] := by
  induction g with
  | nil => rfl
  | cons e rest ih =>
      obtain ⟨k, es⟩ := e
      rw [graphKeys_cons, List.mem_cons] at h
      push_neg at h
      simp [graphGet, Ne.symm h.1]
      exact ih h.2

theorem mem_graphGet (g : List (String × List (String × String))) (u : String)
    (dv : String × String) (h : dv ∈ graphGet g u) :
    ∃ e ∈ g, e.1 = u ∧ dv ∈ e.2 := by
  induction g with
  | nil => simp [graphGet] at h
  | cons e rest ih =>
      obtain ⟨k, es⟩ := e
      by_cases hk : k = u
      · subst hk
        simp [graphGet] at h
        exact ⟨(k, es), by simp, rfl, h⟩
      · simp [graphGet, hk] at h
        obtain ⟨e', he', hu, hdv⟩ := ih h
        exact ⟨e', by simp [he'], hu, hdv⟩

theorem sum_map_add_split (l : List String) (f g : String → Nat) :
    (l.map (fun u => f u + g u)).sum = (l.map f).sum + (l.map g).sum := by
  induction l with
  | nil => rfl
  | cons a l ih => simp [ih]; omega

theorem sum_map_ite_count (l : List String) (k : String) (c : Nat) :
    (l.map (fun u => if u = k then c else 0)).sum = c * l.count k := by
  induction l with
  | nil => simp
  | cons a l ih =>
      by_cases h : a = k
      · subst h
        simp [List.count_cons, ih]
        ring
      · simp [h, List.count_cons, ih]

theorem sumCnt_nil_graph (l : List String) (v : String) :
    sumCnt [] l v = 0 := by
  simp [sumCnt, graphGet, cntv]

theorem sumCnt_cons (k : String) (es : List (String × String))
    (rest : List (String × List (String × String))) (l : List String) (v : String)
    (hk : k ∉ graphKeys rest) :
    sumCnt ((k, es) :: rest) l v = sumCnt rest l v + cntv es v * l.count k := by
  unfold sumCnt
  have hmap : l.map (fun u => cntv (graphGet ((k, es) :: rest) u) v)
      = l.map (fun u => cntv (graphGet rest u) v + (if u = k then cntv es v else 0)) := by
    apply List.map_congr_left
    intro u _
    by_cases hu : u = k
    · subst hu
      simp [graphGet, graphGet_eq_nil_of_not_mem_keys rest u hk, cntv]
    · simp [graphGet, show k ≠ u from fun h => hu h.symm, hu]
  rw [hmap, sum_map_add_split, sum_map_ite_count]

theorem initInDeg_cons (k : String) (es : List (String × String))
    (rest : List (String × List (String × String))) (v : String) :
    initInDeg ((k, es) :: rest) v = cntv es v + initInDeg rest v := by
  simp [initInDeg]

/-- The processed-edge count never exceeds the total in-degree, when
the popped list has no duplicates and the graph keys are unique. -/
theorem sumCnt_le (g : List (String × List (String × String))) (l : List String)
    (v : String) (hkeys : (graphKeys g).Nodup) (hl : l.Nodup) :
    sumCnt g l v ≤ initInDeg g v := by
  induction g with
  | nil => simp [sumCnt_nil_graph, initInDeg]
  | cons e rest ih =>
      obtain ⟨k, es⟩ := e
      rw [graphKeys_cons] at hkeys
      have hk : k ∉ graphKeys rest := (List.nodup_cons.mp hkeys).1
      have hrest : (graphKeys rest).Nodup := (List.nodup_cons.mp hkeys).2
      rw [sumCnt_cons k es rest l v hk, initInDeg_cons]
      have hcount : l.count k ≤ 1 := List.nodup_iff_count_le_one.mp hl k
      have h2 : cntv es v * l.count k ≤ cntv es v := by
        calc cntv es v * l.count k ≤ cntv es v * 1 := Nat.mul_le_mul_left _ hcount
        _ = cntv es v := Nat.mul_one _
      have := ih hrest
      omega

/-- When the processed-edge count into `v` reaches the total in-degree,
every entry with an edge into `v` has its key among the popped
nodes. -/
theorem sumCnt_cover (g : List (String × List (String × String))) (l : List String)
    (v : String) (hkeys : (graphKeys g).Nodup) (hl : l.Nodup)
    (he : initInDeg g v ≤ sumCnt g l v) :
    ∀ e ∈ g, 0 < cntv e.2 v → e.1 ∈ l := by
  induction g with
  | nil => simp
  | cons e rest ih =>
      obtain ⟨k, es⟩ := e
      rw [graphKeys_cons] at hkeys
      have hk : k ∉ graphKeys rest := (List.nodup_cons.mp hkeys).1
      have hrest : (graphKeys rest).Nodup := (List.nodup_cons.mp hkeys).2
      rw [sumCnt_cons k es rest l v hk, initInDeg_cons] at he
      have hle : sumCnt rest l v ≤ initInDeg rest v := sumCnt_le rest l v hrest hl
      have hcount : l.count k ≤ 1 := List.nodup_iff_count_le_one.mp hl k
      have h2 : cntv es v * l.count k ≤ cntv es v := by
        calc cntv es v * l.count k ≤ cntv es v * 1 := Nat.mul_le_mul_left _ hcount
        _ = cntv es v := Nat.mul_one _
      intro e' he' hpos
      rcases List.mem_cons.mp he' with h | h
      · subst h
        have hpos' : 0 < cntv es v := hpos
        have hc1 : 0 < l.count k := by
          rcases Nat.eq_zero_or_pos (l.count k) with h0 | h0
          · rw [h0, Nat.mul_zero] at he
            omega
          · exact h0
        exact List.count_pos_iff.mp hc1
      · exact ih hrest (by omega) e' h hpos

/-- `computeInDeg` (the nested increment loop of lines 221-223) indeed
tabulates the total in-degree of every node. -/
theorem computeInDeg_inner (es : List (String × String)) (acc : String → Int)
    (v : String) :
    (es.foldl (fun acc2 dv => fun w => if w = dv.1 then acc2 dv.1 + 1 else acc2 w) acc) v
      = acc v + cntv es v := by
  induction es generalizing acc with
  | nil => simp [cntv]
  | cons dv es ih =>
      rw [List.foldl_cons, ih]
      by_cases h : v = dv.1
      · subst h
        simp [cntv, List.count_cons]
        omega
      · simp [h, cntv, List.count_cons, Ne.symm h]

theorem computeInDeg_eq (g : List (String × List (String × String))) (v : String) :
    computeInDeg g v = (initInDeg g v : Int) := by
  unfold computeInDeg
  suffices h : ∀ (acc : String → Int),
      (g.foldl (fun acc entry =>
        entry.2.foldl (fun acc2 dv => fun w => if w = dv.1 then acc2 dv.1 + 1 else acc2 w) acc) acc) v
        = acc v + initInDeg g v by
    simpa using h (fun _ => 0)
  induction g with
  | nil => intro acc; simp [initInDeg]
  | cons e rest ih =>
      intro acc
      rw [List.foldl_cons, ih, computeInDeg_inner]
      obtain ⟨k, es⟩ := e
      rw [initInDeg_cons]
      push_cast
      ring

/-!
## The Kahn loop invariant

`KMid g ns order in_degree queue es` describes the resolver's state in
the middle of processing the neighbour list of the most recently popped
node: `order` is the load order built so far (the popped node
included), `es` the still-unprocessed suffix of its edge list, `queue`
the pending queue.  Between iterations `es = []`.
-/

/-- Every node of `order` is preceded by the sources of all its
in-edges. -/
def ordOK (g : List (String × List (String × String))) (order : List String) : Prop :=
  ∀ l1 v l2, order = l1 ++ v :: l2 → ∀ e ∈ g, 0 < cntv e.2 v → e.1 ∈ l1

/-- The loop invariant: (1) no node is queued or emitted twice; (2)(3)
queued and emitted nodes come from `ns`; (4) the in-degree table equals
the initial in-degree minus the processed in-edges (`sumCnt` over
`order`, less the unprocessed suffix `es`); (5) a queued or emitted
node has all its in-edges processed; (6) emitted nodes follow all their
in-edge sources; (7) a node of `ns` whose in-degree reached zero with
no pending decrement is queued or emitted. -/
def KMid (g : List (String × List (String × String))) (ns order : List String)
    (in_degree : String → Int) (queue : List String)
    (es : List (String × String)) : Prop :=
  (queue ++ order).Nodup ∧
  (∀ v ∈ queue, v ∈ ns) ∧
  (∀ v ∈ order, v ∈ ns) ∧
  (∀ v, in_degree v =
    (initInDeg g v : Int) - (sumCnt g order v : Int) + (cntv es v : Int)) ∧
  (∀ v, v ∈ queue ∨ v ∈ order →
    sumCnt g order v = initInDeg g v ∧ cntv es v = 0) ∧
  ordOK g order ∧
  (∀ v ∈ ns, in_degree v = 0 → cntv es v = 0 → v ∈ queue ∨ v ∈ order)

theorem cntv_cons (n ver : String) (rest : List (String × String)) (v : String) :
    cntv ((n, ver) :: rest) v = cntv rest v + (if n = v then 1 else 0) := by
  by_cases h : n = v <;> simp [cntv, List.count_cons, h]

/-- Processing a neighbour list preserves the invariant and consumes
the suffix. -/
theorem process_spec (g : List (String × List (String × String)))
    (ns order : List String) (HK : (graphKeys g).Nodup) :
    ∀ (es : List (String × String)) (in_degree : String → Int)
      (queue : List String),
      KMid g ns order in_degree queue es →
      (∀ dv ∈ es, dv.1 ∈ ns) →
      KMid g ns order (process_neighbors in_degree queue es).1
        (process_neighbors in_degree queue es).2 [] := by
  intro es
  induction es with
  | nil =>
      intro inDeg queue hmid _
      simpa [process_neighbors] using hmid
  | cons dv rest ih =>
      obtain ⟨n, ver⟩ := dv
      intro inDeg queue hmid hns
      obtain ⟨h1, h2, h3, h4, h5, h6, h7⟩ := hmid
      have hordnd : order.Nodup := (List.nodup_append.mp h1).2.1
      have hqnd : queue.Nodup := (List.nodup_append.mp h1).1
      have hdisj : queue.Disjoint order := (List.nodup_append.mp h1).2.2
      have hfresh : n ∉ queue ∧ n ∉ order := by
        constructor <;>
          · intro hmem
            have h0 := (h5 n (by tauto)).2
            rw [cntv_cons] at h0
            simp at h0
      rw [show process_neighbors inDeg queue ((n, ver) :: rest)
            = process_neighbors (fun w => if w = n then inDeg n - 1 else inDeg w)
                (if inDeg n - 1 = 0 then queue ++ [n] else queue) rest from rfl]
      have h4n := h4 n
      rw [cntv_cons, if_pos rfl] at h4n
      have happ : ∀ w, (fun w => if w = n then inDeg n - 1 else inDeg w) w
          = if w = n then inDeg n - 1 else inDeg w := fun _ => rfl
      have hstep : KMid g ns order (fun w => if w = n then inDeg n - 1 else inDeg w)
          (if inDeg n - 1 = 0 then queue ++ [n] else queue) rest := by
        have hM3 : ∀ v, (fun w => if w = n then inDeg n - 1 else inDeg w) v =
            (initInDeg g v : Int) - (sumCnt g order v : Int) + (cntv rest v : Int) := by
          intro v
          rw [happ]
          by_cases hvn : v = n
          · subst hvn
            rw [if_pos rfl]
            omega
          · have hnv : n ≠ v := fun h => hvn h.symm
            have h4v := h4 v
            rw [cntv_cons, if_neg hnv, Nat.add_zero] at h4v
            rw [if_neg hvn]
            exact h4v
        by_cases hd : inDeg n - 1 = 0
        · -- the decrement reaches zero: `n` is pushed
          have hsum_le : sumCnt g order n ≤ initInDeg g n := sumCnt_le g order n HK hordnd
          have hkey : sumCnt g order n = initInDeg g n ∧ cntv rest n = 0 := by
            constructor <;> omega
          rw [if_pos hd]
          refine ⟨?_, ?_, h3, hM3, ?_, h6, ?_⟩
          · rw [List.nodup_append]
            refine ⟨?_, hordnd, ?_⟩
            · rw [List.nodup_append]
              refine ⟨hqnd, List.nodup_singleton n, ?_⟩
              intro a ha hb
              rw [List.mem_singleton] at hb
              subst hb
              exact hfresh.1 ha
            · intro a ha
              rcases List.mem_append.mp ha with h | h
              · exact hdisj h
              · rw [List.mem_singleton] at h
                subst h
                exact hfresh.2
          · intro v hv
            rcases List.mem_append.mp hv with h | h
            · exact h2 v h
            · rw [List.mem_singleton] at h
              rw [h]
              exact hns (n, ver) (by simp)
          · intro v hv
            by_cases hvn : v = n
            · subst hvn
              exact hkey
            · have hnv : n ≠ v := fun h => hvn h.symm
              have hv' : v ∈ queue ∨ v ∈ order := by
                rcases hv with h | h
                · rcases List.mem_append.mp h with h | h
                  · exact Or.inl h
                  · rw [List.mem_singleton] at h
                    exact absurd h hvn
                · exact Or.inr h
              have h5v := h5 v hv'
              rw [cntv_cons, if_neg hnv, Nat.add_zero] at h5v
              exact h5v
          · intro v hvns hvdeg hvcnt
            by_cases hvn : v = n
            · subst hvn
              exact Or.inl (by simp)
            · have hnv : n ≠ v := fun h => hvn h.symm
              rw [happ, if_neg hvn] at hvdeg
              have h7v := h7 v hvns hvdeg
                (by rw [cntv_cons, if_neg hnv, Nat.add_zero]; exact hvcnt)
              rcases h7v with h | h
              · exact Or.inl (List.mem_append.mpr (Or.inl h))
              · exact Or.inr h
        · -- the decrement does not reach zero: queue unchanged
          rw [if_neg hd]
          refine ⟨h1, h2, h3, hM3, ?_, h6, ?_⟩
          · intro v hv
            have hvn : v ≠ n := by
              rintro rfl
              rcases hv with h | h
              · exact hfresh.1 h
              · exact hfresh.2 h
            have hnv : n ≠ v := fun h => hvn h.symm
            have h5v := h5 v hv
            rw [cntv_cons, if_neg hnv, Nat.add_zero] at h5v
            exact h5v
          · intro v hvns hvdeg hvcnt
            by_cases hvn : v = n
            · subst hvn
              rw [happ, if_pos rfl] at hvdeg
              exact absurd hvdeg hd
            · have hnv : n ≠ v := fun h => hvn h.symm
              rw [happ, if_neg hvn] at hvdeg
              exact h7 v hvns hvdeg
                (by rw [cntv_cons, if_neg hnv, Nat.add_zero]; exact hvcnt)
      exact ih _ _ hstep (fun dv hdv => hns dv (List.mem_cons_of_mem _ hdv))

theorem nodup_subset_length_le (l ns : List String) (hl : l.Nodup)
    (hsub : ∀ x ∈ l, x ∈ ns) : l.length ≤ ns.length := by
  calc l.length = l.toFinset.card := (List.toFinset_card_of_nodup hl).symm
  _ ≤ ns.toFinset.card := by
      apply Finset.card_le_card
      intro x hx
      rw [List.mem_toFinset] at hx ⊢
      exact hsub x hx
  _ ≤ ns.length := List.toFinset_card_le ns

theorem append_singleton_split (o : List String) (c : String)
    (l1 : List String) (v : String) (l2 : List String)
    (h : o ++ [c] = l1 ++ v :: l2) :
    (l1 = o ∧ v = c ∧ l2 = []) ∨ ∃ l2', o = l1 ++ v :: l2' := by
  rcases List.eq_nil_or_concat l2 with h2 | ⟨l2', b, rfl⟩
  · subst h2
    have hlen : o.length = l1.length := by
      have := congrArg List.length h
      simp at this
      omega
    obtain ⟨ho, hc⟩ := List.append_inj h hlen
    exact Or.inl ⟨ho.symm, (by simpa using hc.symm), rfl⟩
  · right
    rw [List.concat_eq_append] at h
    rw [(by simp : l1 ++ v :: (l2' ++ [b]) = (l1 ++ v :: l2') ++ [b])] at h
    have hlen : o.length = (l1 ++ v :: l2').length := by
      have := congrArg List.length h
      simp at this ⊢
      omega
    obtain ⟨ho, _⟩ := List.append_inj h hlen
    exact ⟨l2', ho⟩

theorem ordOK_append (g : List (String × List (String × String)))
    (order : List String) (current : String) (h6 : ordOK g order)
    (hcov : ∀ e ∈ g, 0 < cntv e.2 current → e.1 ∈ order) :
    ordOK g (order ++ [current]) := by
  intro l1 v l2 heq e he hpos
  rcases append_singleton_split order current l1 v l2 heq with ⟨hl1, hv, _⟩ | ⟨l2', heq'⟩
  · rw [hl1]
    exact hcov e he (hv ▸ hpos)
  · exact h6 l1 v l2' heq' e he hpos

theorem sumCnt_append (g : List (String × List (String × String)))
    (l1 l2 : List String) (v : String) :
    sumCnt g (l1 ++ l2) v = sumCnt g l1 v + sumCnt g l2 v := by
  simp [sumCnt]

theorem sumCnt_singleton (g : List (String × List (String × String)))
    (u : String) (v : String) :
    sumCnt g [u] v = cntv (graphGet g u) v := by
  simp [sumCnt]

/-- Running the drain loop from a state satisfying the invariant, with
enough fuel (one unit per future iteration; the emitted list grows by
one each iteration and can never exceed `ns`), ends with an empty queue
and the invariant intact. -/
theorem kahn_loop_spec (g : List (String × List (String × String)))
    (ns : List String) (HK : (graphKeys g).Nodup)
    (HT : ∀ e ∈ g, ∀ dv ∈ e.2, dv.1 ∈ ns) :
    ∀ (fuel : Nat) (in_degree : String → Int) (queue order : List String),
      KMid g ns order in_degree queue [] →
      ns.length < fuel + order.length →
      KMid g ns (kahn_loop g fuel in_degree queue order).2.2
        (kahn_loop g fuel in_degree queue order).1
        (kahn_loop g fuel in_degree queue order).2.1 [] ∧
      (kahn_loop g fuel in_degree queue order).2.1 = [] := by
  intro fuel
  induction fuel with
  | zero =>
      intro inDeg queue order hmid hlen
      exfalso
      obtain ⟨h1, _, h3, _⟩ := hmid
      have hord : order.Nodup := (List.nodup_append.mp h1).2.1
      have := nodup_subset_length_le order ns hord h3
      omega
  | succ fuel ih =>
      intro inDeg queue order hmid hlen
      match queue with
      | [] =>
          exact ⟨hmid, rfl⟩
      | current :: rest =>
          obtain ⟨h1, h2, h3, h4, h5, h6, h7⟩ := hmid
          have hordnd : order.Nodup := (List.nodup_append.mp h1).2.1
          have hcur_key := h5 current (Or.inl (List.mem_cons_self current rest))
          have hcov : ∀ e ∈ g, 0 < cntv e.2 current → e.1 ∈ order :=
            sumCnt_cover g order current HK hordnd (le_of_eq hcur_key.1.symm)
          have hstep : KMid g ns (order ++ [current]) inDeg rest (graphGet g current) := by
            have hperm : ((current :: rest) ++ order).Nodup := h1
            have hnodup2 : (rest ++ (order ++ [current])).Nodup := by
              rw [← List.append_assoc]
              have hp : List.Perm ((rest ++ order) ++ [current])
                  (current :: (rest ++ order)) :=
                List.perm_append_singleton current (rest ++ order)
              rw [hp.nodup_iff]
              simpa using hperm
            have hnodup_ord : (order ++ [current]).Nodup :=
              (List.nodup_append.mp hnodup2).2.1
            refine ⟨hnodup2, ?_, ?_, ?_, ?_, ?_, ?_⟩
            · intro v hv
              exact h2 v (List.mem_cons_of_mem current hv)
            · intro v hv
              rcases List.mem_append.mp hv with h | h
              · exact h3 v h
              · rw [List.mem_singleton] at h
                rw [h]
                exact h2 current (List.mem_cons_self current rest)
            · intro v
              have h4v := h4 v
              rw [sumCnt_append, sumCnt_singleton]
              have hc0 : cntv ([] : List (String × String)) v = 0 := by simp [cntv]
              rw [hc0] at h4v
              omega
            · intro v hv
              have hvold : v ∈ current :: rest ∨ v ∈ order := by
                rcases hv with h | h
                · exact Or.inl (List.mem_cons_of_mem current h)
                · rcases List.mem_append.mp h with h | h
                  · exact Or.inr h
                  · rw [List.mem_singleton] at h
                    rw [h]
                    exact Or.inl (List.mem_cons_self current rest)
              have h5v := h5 v hvold
              have hle : sumCnt g (order ++ [current]) v ≤ initInDeg g v :=
                sumCnt_le g (order ++ [current]) v HK hnodup_ord
              rw [sumCnt_append, sumCnt_singleton] at hle ⊢
              constructor <;> omega
            · exact ordOK_append g order current h6 hcov
            · intro v hvns hvdeg hvcnt
              have h7v := h7 v hvns hvdeg (by simp [cntv])
              rcases h7v with h | h
              · rcases List.mem_cons.mp h with h | h
                · rw [h]
                  exact Or.inr (List.mem_append.mpr (Or.inr (List.mem_singleton.mpr rfl)))
                · exact Or.inl h
              · exact Or.inr (List.mem_append.mpr (Or.inl h))
          have hmid' := process_spec g ns (order ++ [current]) HK (graphGet g current)
            inDeg rest hstep
            (fun dv hdv => by
              obtain ⟨e, he, hu, hdv2⟩ := mem_graphGet g current dv hdv
              exact HT e he dv hdv2)
          rw [show kahn_loop g (fuel + 1) inDeg (current :: rest) order
                = kahn_loop g fuel
                    (process_neighbors inDeg rest (graphGet g current)).1
                    (process_neighbors inDeg rest (graphGet g current)).2
                    (order ++ [current]) from rfl]
          exact ih _ _ _ hmid' (by simp; omega)

/-- `calculate_load_order`'s full run satisfies the final invariant
and drains its queue, assuming unique graph keys, a duplicate-free node
set and edge targets drawn from the node set (all established for
builder-produced states). -/
theorem kahn_run_spec (g : List (String × List (String × String)))
    (ns : List String) (HK : (graphKeys g).Nodup) (Hns : ns.Nodup)
    (HT : ∀ e ∈ g, ∀ dv ∈ e.2, dv.1 ∈ ns) :
    KMid g ns (kahn_run g ns).2.2 (kahn_run g ns).1 (kahn_run g ns).2.1 [] ∧
    (kahn_run g ns).2.1 = [] := by
  have hseed : KMid g ns [] (computeInDeg g)
      (ns.filter (fun n => computeInDeg g n = 0)) [] := by
    refine ⟨?_, ?_, ?_, ?_, ?_, ?_, ?_⟩
    · simpa using List.Nodup.filter _ Hns
    · intro v hv
      exact List.mem_of_mem_filter hv
    · intro v hv
      simp at hv
    · intro v
      rw [computeInDeg_eq]
      simp [sumCnt, cntv]
    · intro v hv
      have hvf : v ∈ ns.filter (fun n => computeInDeg g n = 0) := by
        rcases hv with h | h
        · exact h
        · simp at h
      rw [List.mem_filter] at hvf
      have h0 : computeInDeg g v = 0 := by simpa using hvf.2
      rw [computeInDeg_eq] at h0
      have hinit : initInDeg g v = 0 := by exact_mod_cast h0
      exact ⟨by simp [sumCnt, hinit], by simp [cntv]⟩
    · intro l1 v l2 heq
      exact absurd heq (by simp)
    · intro v hvns hvdeg _
      left
      rw [List.mem_filter]
      exact ⟨hvns, by simp [hvdeg]⟩
  rw [show kahn_run g ns
        = kahn_loop g (ns.length + totalEdges g + 1) (computeInDeg g)
            (ns.filter (fun n => computeInDeg g n = 0)) [] from rfl]
  exact kahn_loop_spec g ns HK HT (ns.length + totalEdges g + 1) (computeInDeg g)
    (ns.filter (fun n => computeInDeg g n = 0)) [] hseed (by simp; omega)

/-!
## Builder invariants

Every state the builder produces has a duplicate-free package set,
unique (and nonempty-valued) graph keys recorded in `all_packages`,
edge targets recorded in `all_packages`, and — apart from the root —
every recorded package is the target of some recorded edge.
-/

/-- All edge targets of the graph, with multiplicity. -/
def graphTargets (g : List (String × List (String × String))) : List String :=
  g.bind (fun e => e.2.map Prod.fst)

theorem isEdgeTarget_iff_mem (g : List (String × List (String × String)))
    (x : String) : isEdgeTarget g x ↔ x ∈ graphTargets g := by
  unfold isEdgeTarget graphTargets
  simp

theorem mem_setAdd (s : List String) (x y : String) :
    y ∈ setAdd s x ↔ y ∈ s ∨ y = x := by
  unfold setAdd
  by_cases h : x ∈ s
  · simp only [if_pos h]
    constructor
    · exact Or.inl
    · rintro (hy | rfl)
      · exact hy
      · exact h
  · simp [if_neg h]

theorem setAdd_nodup (s : List String) (x : String) (h : s.Nodup) :
    (setAdd s x).Nodup := by
  unfold setAdd
  by_cases hx : x ∈ s
  · simpa [if_pos hx] using h
  · rw [if_neg hx, List.nodup_append]
    refine ⟨h, List.nodup_singleton x, ?_⟩
    intro a ha hb
    rw [List.mem_singleton] at hb
    subst hb
    exact hx ha

theorem graphTargets_cons (k : String) (es : List (String × String))
    (rest : List (String × List (String × String))) :
    graphTargets ((k, es) :: rest) = es.map Prod.fst ++ graphTargets rest := rfl

theorem mem_graphTargets_graphAppend (g : List (String × List (String × String)))
    (k : String) (v : String × String) (x : String) :
    x ∈ graphTargets (graphAppend g k v) ↔ x ∈ graphTargets g ∨ x = v.1 := by
  induction g with
  | nil =>
      simp [graphAppend, graphTargets, eq_comm]
  | cons e rest ih =>
      obtain ⟨k', es⟩ := e
      by_cases hk : k' = k
      · rw [hk]
        rw [show graphAppend ((k, es) :: rest) k v = (k, es ++ [v]) :: rest by
          simp [graphAppend]]
        rw [graphTargets_cons, graphTargets_cons]
        simp only [List.map_append, List.mem_append, List.map_cons, List.map_nil,
          List.mem_singleton]
        tauto
      · rw [show graphAppend ((k', es) :: rest) k v
              = (k', es) :: graphAppend rest k v by simp [graphAppend, hk]]
        rw [graphTargets_cons, graphTargets_cons]
        simp only [List.mem_append]
        rw [ih]
        tauto

theorem graphKeys_graphAppend (g : List (String × List (String × String)))
    (k : String) (v : String × String) :
    graphKeys (graphAppend g k v)
      = if k ∈ graphKeys g then graphKeys g else graphKeys g ++ [k] := by
  induction g with
  | nil => simp [graphAppend, graphKeys]
  | cons e rest ih =>
      obtain ⟨k', es⟩ := e
      by_cases hk : k' = k
      · subst hk
        simp [graphAppend, graphKeys_cons, graphKeys]
      · rw [show graphAppend ((k', es) :: rest) k v
              = (k', es) :: graphAppend rest k v by simp [graphAppend, hk]]
        rw [graphKeys_cons, graphKeys_cons, ih]
        by_cases hmem : k ∈ graphKeys rest
        · simp [hmem, hk, Ne.symm hk]
        · simp [hmem, hk, Ne.symm hk]

theorem graphAppend_entry_key (g : List (String × List (String × String)))
    (k : String) (v : String × String) (S : List String)
    (hg : ∀ e ∈ g, e.1 ∈ S ∧ e.2 ≠ []) (hk : k ∈ S) :
    ∀ e ∈ graphAppend g k v, e.1 ∈ S ∧ e.2 ≠ [] := by
  induction g with
  | nil =>
      intro e he
      simp [graphAppend] at he
      subst he
      exact ⟨hk, by simp⟩
  | cons e0 rest ih =>
      obtain ⟨k', es⟩ := e0
      by_cases hkk : k' = k
      · intro e he
        rw [show graphAppend ((k', es) :: rest) k v = (k', es ++ [v]) :: rest by
          simp [graphAppend, hkk]] at he
        rcases List.mem_cons.mp he with heq | he
        · rw [heq]
          exact ⟨(hg (k', es) (by simp)).1, by simp⟩
        · exact hg e (List.mem_cons_of_mem _ he)
      · intro e he
        rw [show graphAppend ((k', es) :: rest) k v
              = (k', es) :: graphAppend rest k v by simp [graphAppend, hkk]] at he
        rcases List.mem_cons.mp he with heq | he
        · rw [heq]
          exact hg (k', es) (by simp)
        · exact ih (fun e' he' => hg e' (List.mem_cons_of_mem _ he')) e he

theorem graphAppend_entry_targets (g : List (String × List (String × String)))
    (k : String) (v : String × String) (S : List String)
    (hg : ∀ e ∈ g, ∀ dv ∈ e.2, dv.1 ∈ S) (hv : v.1 ∈ S) :
    ∀ e ∈ graphAppend g k v, ∀ dv ∈ e.2, dv.1 ∈ S := by
  induction g with
  | nil =>
      intro e he dv hdv
      simp [graphAppend] at he
      subst he
      rw [List.mem_singleton] at hdv
      subst hdv
      exact hv
  | cons e0 rest ih =>
      obtain ⟨k', es⟩ := e0
      by_cases hkk : k' = k
      · intro e he dv hdv
        rw [show graphAppend ((k', es) :: rest) k v = (k', es ++ [v]) :: rest by
          simp [graphAppend, hkk]] at he
        rcases List.mem_cons.mp he with heq | he
        · rw [heq] at hdv
          rcases List.mem_append.mp hdv with h | h
          · exact hg (k', es) (by simp) dv h
          · rw [List.mem_singleton] at h
            subst h
            exact hv
        · exact hg e (List.mem_cons_of_mem _ he) dv hdv
      · intro e he dv hdv
        rw [show graphAppend ((k', es) :: rest) k v
              = (k', es) :: graphAppend rest k v by simp [graphAppend, hkk]] at he
        rcases List.mem_cons.mp he with heq | he
        · rw [heq] at hdv
          exact hg (k', es) (by simp) dv hdv
        · exact ih (fun e' he' => hg e' (List.mem_cons_of_mem _ he')) e he dv hdv

/-- The state invariant the builder maintains, relative to the root
package of the run. -/
def BuilderInv (root : String) (st : AnalyzerState) : Prop :=
  st.all_packages.Nodup ∧
  (graphKeys st.dependency_graph).Nodup ∧
  (∀ e ∈ st.dependency_graph, e.1 ∈ st.all_packages ∧ e.2 ≠ []) ∧
  (∀ e ∈ st.dependency_graph, ∀ dv ∈ e.2, dv.1 ∈ st.all_packages) ∧
  (∀ x ∈ st.all_packages, x = root ∨ x ∈ graphTargets st.dependency_graph)

/-- State growth: the package set and the recorded edge targets only
ever grow. -/
def BuilderExt (st st' : AnalyzerState) : Prop :=
  (∀ x ∈ st.all_packages, x ∈ st'.all_packages) ∧
  (∀ x ∈ graphTargets st.dependency_graph, x ∈ graphTargets st'.dependency_graph)

theorem builderExt_refl (st : AnalyzerState) : BuilderExt st st :=
  ⟨fun _ h => h, fun _ h => h⟩

theorem builderExt_trans (s t u : AnalyzerState) (h1 : BuilderExt s t)
    (h2 : BuilderExt t u) : BuilderExt s u :=
  ⟨fun x h => h2.1 x (h1.1 x h), fun x h => h2.2 x (h1.2 x h)⟩

theorem build_go_inv (fetch : String → Except String (List (String × String)))
    (max_depth : Nat) (root : String)
    (R : String → Nat → List String → AnalyzerState → AnalyzerState)
    (hR : ∀ d n p st, BuilderInv root st →
      (d = root ∨ d ∈ graphTargets st.dependency_graph) →
      BuilderInv root (R d n p st) ∧ BuilderExt st (R d n p st)) :
    ∀ pkg depth path st, BuilderInv root st →
      (pkg = root ∨ pkg ∈ graphTargets st.dependency_graph) →
      BuilderInv root (build_go fetch max_depth R pkg depth path st) ∧
      BuilderExt st (build_go fetch max_depth R pkg depth path st) := by
  intro pkg depth path st hinv hpkg
  unfold build_go
  by_cases hdep : max_depth ≤ depth
  · rw [if_pos hdep]
    exact ⟨hinv, builderExt_refl st⟩
  · rw [if_neg hdep]
    by_cases hpath : pkg ∈ path
    · rw [if_pos hpath]
      exact ⟨hinv, ⟨fun _ h => h, fun _ h => h⟩⟩
    · rw [if_neg hpath]
      obtain ⟨hnd, hknd, hkeymem, htgt, hchar⟩ := hinv
      have hinv1 : BuilderInv root
          { st with all_packages := setAdd st.all_packages pkg } := by
        refine ⟨setAdd_nodup _ _ hnd, hknd, ?_, ?_, ?_⟩
        · intro e he
          exact ⟨(mem_setAdd _ _ _).mpr (Or.inl (hkeymem e he).1), (hkeymem e he).2⟩
        · intro e he dv hdv
          exact (mem_setAdd _ _ _).mpr (Or.inl (htgt e he dv hdv))
        · intro x hx
          rcases (mem_setAdd _ _ _).mp hx with h | rfl
          · exact hchar x h
          · exact hpkg
      have hext1 : BuilderExt st { st with all_packages := setAdd st.all_packages pkg } :=
        ⟨fun x h => (mem_setAdd _ _ _).mpr (Or.inl h), fun _ h => h⟩
      cases hfe : fetch pkg with
      | error msg =>
          exact ⟨hinv1, hext1⟩
      | ok deps =>
          have hpkg1 : pkg ∈ setAdd st.all_packages pkg :=
            (mem_setAdd _ _ _).mpr (Or.inr rfl)
          have hfold : ∀ (ds : List (String × String)) (s : AnalyzerState),
              BuilderInv root s → pkg ∈ s.all_packages →
              BuilderInv root (ds.foldl (fun s dv =>
                R dv.1 (depth + 1) (path ++ [pkg])
                  { s with
                      dependency_graph := graphAppend s.dependency_graph pkg dv
                      all_packages := setAdd s.all_packages dv.1 }) s) ∧
              BuilderExt s (ds.foldl (fun s dv =>
                R dv.1 (depth + 1) (path ++ [pkg])
                  { s with
                      dependency_graph := graphAppend s.dependency_graph pkg dv
                      all_packages := setAdd s.all_packages dv.1 }) s) := by
            intro ds
            induction ds with
            | nil =>
                intro s hs _
                exact ⟨hs, builderExt_refl s⟩
            | cons dv rest ih =>
                intro s hs hpkgs
                obtain ⟨hnd', hknd', hkeymem', htgt', hchar'⟩ := hs
                set s1 : AnalyzerState :=
                  { s with
                      dependency_graph := graphAppend s.dependency_graph pkg dv
                      all_packages := setAdd s.all_packages dv.1 } with hs1def
                have hs1 : BuilderInv root s1 := by
                  refine ⟨setAdd_nodup _ _ hnd', ?_, ?_, ?_, ?_⟩
                  · show (graphKeys (graphAppend s.dependency_graph pkg dv)).Nodup
                    rw [graphKeys_graphAppend]
                    by_cases hmem : pkg ∈ graphKeys s.dependency_graph
                    · simpa [hmem] using hknd'
                    · rw [if_neg hmem, List.nodup_append]
                      refine ⟨hknd', List.nodup_singleton pkg, ?_⟩
                      intro a ha hb
                      rw [List.mem_singleton] at hb
                      subst hb
                      exact hmem ha
                  · exact graphAppend_entry_key s.dependency_graph pkg dv _
                      (fun e he => ⟨(mem_setAdd _ _ _).mpr (Or.inl (hkeymem' e he).1),
                        (hkeymem' e he).2⟩)
                      ((mem_setAdd _ _ _).mpr (Or.inl hpkgs))
                  · exact graphAppend_entry_targets s.dependency_graph pkg dv _
                      (fun e he dv' hdv' =>
                        (mem_setAdd _ _ _).mpr (Or.inl (htgt' e he dv' hdv')))
                      ((mem_setAdd _ _ _).mpr (Or.inr rfl))
                  · intro x hx
                    rcases (mem_setAdd _ _ _).mp hx with h | rfl
                    · rcases hchar' x h with h' | h'
                      · exact Or.inl h'
                      · exact Or.inr
                          ((mem_graphTargets_graphAppend _ _ _ _).mpr (Or.inl h'))
                    · exact Or.inr
                        ((mem_graphTargets_graphAppend _ _ _ _).mpr (Or.inr rfl))
                have hext_s1 : BuilderExt s s1 :=
                  ⟨fun x h => (mem_setAdd _ _ _).mpr (Or.inl h),
                   fun x h => (mem_graphTargets_graphAppend _ _ _ _).mpr (Or.inl h)⟩
                have hcall := hR dv.1 (depth + 1) (path ++ [pkg]) s1 hs1
                  (Or.inr ((mem_graphTargets_graphAppend _ _ _ _).mpr (Or.inr rfl)))
                have hpkg2 : pkg ∈ (R dv.1 (depth + 1) (path ++ [pkg]) s1).all_packages :=
                  hcall.2.1 pkg ((mem_setAdd _ _ _).mpr (Or.inl hpkgs))
                have hrest := ih (R dv.1 (depth + 1) (path ++ [pkg]) s1) hcall.1 hpkg2
                rw [List.foldl_cons]
                exact ⟨hrest.1,
                  builderExt_trans _ _ _
                    (builderExt_trans _ _ _ hext_s1 hcall.2) hrest.2⟩
          have hres := hfold deps
            { st with all_packages := setAdd st.all_packages pkg } hinv1 hpkg1
          exact ⟨hres.1, builderExt_trans _ _ _ hext1 hres.2⟩

theorem build_inv (fetch : String → Except String (List (String × String)))
    (max_depth : Nat) (root : String) :
    ∀ (fuel : Nat) (pkg : String) (depth : Nat) (path : List String)
      (st : AnalyzerState), BuilderInv root st →
      (pkg = root ∨ pkg ∈ graphTargets st.dependency_graph) →
      BuilderInv root (build_dependency_graph_bfs fetch max_depth fuel pkg depth path st) ∧
      BuilderExt st (build_dependency_graph_bfs fetch max_depth fuel pkg depth path st) := by
  intro fuel
  induction fuel with
  | zero =>
      exact build_go_inv fetch max_depth root _
        (fun d n p st hinv _ => ⟨hinv, builderExt_refl st⟩)
  | succ fuel ih =>
      exact build_go_inv fetch max_depth root _ (fun d n p st hinv hd => ih d n p st hinv hd)

theorem initialState_inv (root : String) : BuilderInv root initialState := by
  refine ⟨List.nodup_nil, ?_, ?_, ?_, ?_⟩ <;> simp [initialState, graphKeys]

/-- Every state produced by a top-level builder run satisfies the
builder invariant. -/
theorem runBuilder_inv (fetch : String → Except String (List (String × String)))
    (max_depth : Nat) (start : String) :
    BuilderInv start (runBuilder fetch max_depth start) :=
  (build_inv fetch max_depth start max_depth start 0 [] initialState
    (initialState_inv start) (Or.inl rfl)).1

theorem foldl_preserve_pkg_mem {α : Type}
    (step : AnalyzerState → α → AnalyzerState)
    (hstep : ∀ s a x, x ∈ s.all_packages → x ∈ (step s a).all_packages) :
    ∀ (l : List α) (s : AnalyzerState) (x : String),
      x ∈ s.all_packages → x ∈ (l.foldl step s).all_packages := by
  intro l
  induction l with
  | nil => intro s x hx; exact hx
  | cons a l ih =>
      intro s x hx
      rw [List.foldl_cons]
      exact ih _ x (hstep s a x hx)

theorem build_go_pkg_mono (fetch : String → Except String (List (String × String)))
    (max_depth : Nat)
    (R : String → Nat → List String → AnalyzerState → AnalyzerState)
    (hR : ∀ d n p s x, x ∈ s.all_packages → x ∈ (R d n p s).all_packages) :
    ∀ pkg depth path st x, x ∈ st.all_packages →
      x ∈ (build_go fetch max_depth R pkg depth path st).all_packages := by
  intro pkg depth path st x hx
  unfold build_go
  by_cases hdep : max_depth ≤ depth
  · rw [if_pos hdep]
    exact hx
  · rw [if_neg hdep]
    by_cases hpath : pkg ∈ path
    · rw [if_pos hpath]
      exact hx
    · rw [if_neg hpath]
      cases hfe : fetch pkg with
      | error msg =>
          exact (mem_setAdd _ _ _).mpr (Or.inl hx)
      | ok deps =>
          refine foldl_preserve_pkg_mem _ ?_ deps _ x
            ((mem_setAdd _ _ _).mpr (Or.inl hx))
          intro s a y hy
          exact hR _ _ _ _ y ((mem_setAdd _ _ _).mpr (Or.inl hy))

theorem build_pkg_mono (fetch : String → Except String (List (String × String)))
    (max_depth : Nat) :
    ∀ (fuel : Nat) (pkg : String) (depth : Nat) (path : List String)
      (st : AnalyzerState) (x : String), x ∈ st.all_packages →
      x ∈ (build_dependency_graph_bfs fetch max_depth fuel pkg depth path st).all_packages := by
  intro fuel
  induction fuel with
  | zero =>
      exact build_go_pkg_mono fetch max_depth _ (fun _ _ _ _ _ h => h)
  | succ fuel ih =>
      exact build_go_pkg_mono fetch max_depth _ (fun d n p s y hy => ih d n p s y hy)

/-- The start package is always recorded (the depth bound is validated
to be at least `1`, so the root call passes the depth check and reaches
`self.all_packages.add(start_package)`). -/
theorem runBuilder_start_mem (fetch : String → Except String (List (String × String)))
    (max_depth : Nat) (start : String) (h : 1 ≤ max_depth) :
    start ∈ (runBuilder fetch max_depth start).all_packages := by
  obtain ⟨m, rfl⟩ : ∃ m, max_depth = m + 1 := ⟨max_depth - 1, by omega⟩
  unfold runBuilder
  rw [show build_dependency_graph_bfs fetch (m + 1) (m + 1)
        = build_go fetch (m + 1) (build_dependency_graph_bfs fetch (m + 1) m) from rfl]
  simp only [build_go]
  rw [if_neg (by omega), if_neg (by simp)]
  have hstart1 : start ∈ setAdd initialState.all_packages start :=
    (mem_setAdd initialState.all_packages start start).mpr (Or.inr rfl)
  cases hfe : fetch start with
  | error msg =>
      exact hstart1
  | ok deps =>
      refine foldl_preserve_pkg_mem _ ?_ deps _ start hstart1
      intro s a y hy
      exact build_pkg_mono fetch (m + 1) m a.1 (0 + 1) _ _ y
        ((mem_setAdd _ _ _).mpr (Or.inl hy))

/-!
## Claim theorems: resolver correctness and renderer node block
-/

/-- C2, counterexample: the claim says that when the graph has a
residual cycle the resolver "reports exactly the nodes that retain
nonzero in-degree after the queue drains".  On the cyclic graph built
from `{A: [B]}, {B: [A]}`, `A` and `B` both retain in-degree `1` after
the drain, yet the fifth-step `calculate_load_order` reports nothing:
it contains no reporting code, and its entire output — the returned
sequence — is `[]`, mentioning neither residual node.  (The residual
report existed in the fourth-step snapshot and was dropped.) -/
theorem claim_C2_counterexample :
    calculate_load_order [("A", [("B", "*")]), ("B", [("A", "*")])] ["A", "B"] = [] ∧
    (kahn_run [("A", [("B", "*")]), ("B", [("A", "*")])] ["A", "B"]).1 "A" = 1 ∧
    (kahn_run [("A", [("B", "*")]), ("B", [("A", "*")])] ["A", "B"]).1 "B" = 1 := by
  refine ⟨by decide, by decide, by decide⟩

/-- C2, amended: under the invariants every builder-produced state
satisfies (unique graph keys, duplicate-free node set, edge targets in
the node set), the returned sequence is a valid topological order of
the nodes it contains: (1) a node of the set appears in the output
exactly when its residual in-degree after the drain is zero — so the
nodes of a residual cycle are exactly the omitted ones, silently
dropped rather than reported; (2) for every recorded edge `(u → v)`
with `v` in the output, `u` appears in the output strictly before
`v`. -/
theorem claim_C2_topological_order
    (g : List (String × List (String × String))) (ns : List String)
    (HK : (graphKeys g).Nodup) (Hns : ns.Nodup)
    (HT : ∀ e ∈ g, ∀ dv ∈ e.2, dv.1 ∈ ns) :
    (∀ v ∈ ns, (v ∈ calculate_load_order g ns ↔ (kahn_run g ns).1 v = 0)) ∧
    (∀ e ∈ g, ∀ dv ∈ e.2, dv.1 ∈ calculate_load_order g ns →
      ∃ i j, i < j ∧ (calculate_load_order g ns).get? i = some e.1 ∧
        (calculate_load_order g ns).get? j = some dv.1) := by
  obtain ⟨⟨h1, h2, h3, h4, h5, h6, h7⟩, hq⟩ := kahn_run_spec g ns HK Hns HT
  have hc0 : ∀ v, cntv ([] : List (String × String)) v = 0 := fun v => rfl
  constructor
  · intro v hvns
    constructor
    · intro hv
      have h5v := h5 v (Or.inr hv)
      have h4v := h4 v
      rw [h5v.1, hc0] at h4v
      omega
    · intro hdeg
      have := h7 v hvns hdeg (hc0 v)
      rcases this with h | h
      · rw [hq] at h
        simp at h
      · exact h
  · intro e he dv hdv hmem
    obtain ⟨l1, l2, hsplit⟩ := List.append_of_mem hmem
    have hpos : 0 < cntv e.2 dv.1 := by
      unfold cntv
      rw [List.count_pos_iff]
      exact List.mem_map.mpr ⟨dv, hdv, rfl⟩
    have hsrc : e.1 ∈ l1 := h6 l1 dv.1 l2 hsplit e he hpos
    obtain ⟨i, hi⟩ := List.mem_iff_get?.mp hsrc
    have hilt : i < l1.length := by
      by_contra hge
      rw [List.get?_eq_none.mpr (by omega)] at hi
      exact Option.noConfusion hi
    refine ⟨i, l1.length, hilt, ?_, ?_⟩
    · rw [hsplit, List.get?_append hilt]
      exact hi
    · rw [hsplit, List.get?_append_right (le_refl l1.length)]
      simp

/-- Witness for C2 at the load-order fixture `{A: [B, C], B: [],
C: [B]}`: `C` is in the output with residual in-degree zero, and for
the recorded edge `C → B` the source `C` appears strictly before
`B`. -/
theorem claim_C2_topological_order_witness :
    ("C" ∈ calculate_load_order
        [("A", [("B", "*"), ("C", "*")]), ("C", [("B", "*")])] ["A", "B", "C"] ↔
      (kahn_run [("A", [("B", "*"), ("C", "*")]), ("C", [("B", "*")])]
        ["A", "B", "C"]).1 "C" = 0) ∧
    (∃ i j, i < j ∧
      (calculate_load_order
        [("A", [("B", "*"), ("C", "*")]), ("C", [("B", "*")])]
        ["A", "B", "C"]).get? i = some "C" ∧
      (calculate_load_order
        [("A", [("B", "*"), ("C", "*")]), ("C", [("B", "*")])]
        ["A", "B", "C"]).get? j = some "B") :=
  ⟨(claim_C2_topological_order
      [("A", [("B", "*"), ("C", "*")]), ("C", [("B", "*")])] ["A", "B", "C"]
      (by decide) (by decide) (by decide)).1 "C" (by decide),
   (claim_C2_topological_order
      [("A", [("B", "*"), ("C", "*")]), ("C", [("B", "*")])] ["A", "B", "C"]
      (by decide) (by decide) (by decide)).2
      ("C", [("B", "*")]) (by decide) ("B", "*") (by decide) (by decide)⟩

/-- C10: for every builder run, the load order computed from the
resulting state has no duplicate package identifiers, every element of
it belongs to the recorded package set, and so its length is at most
the number of known packages. -/
theorem claim_C10_load_order_wellformed
    (fetch : String → Except String (List (String × String)))
    (max_depth : Nat) (start : String) :
    ((calculate_load_order (runBuilder fetch max_depth start).dependency_graph
        (runBuilder fetch max_depth start).all_packages).Nodup) ∧
    (∀ x ∈ calculate_load_order (runBuilder fetch max_depth start).dependency_graph
        (runBuilder fetch max_depth start).all_packages,
      x ∈ (runBuilder fetch max_depth start).all_packages) ∧
    (calculate_load_order (runBuilder fetch max_depth start).dependency_graph
        (runBuilder fetch max_depth start).all_packages).length ≤
      (runBuilder fetch max_depth start).all_packages.length := by
  obtain ⟨hnd, hknd, _, htgt, _⟩ := runBuilder_inv fetch max_depth start
  obtain ⟨⟨h1, _, h3, _, _, _, _⟩, hq⟩ := kahn_run_spec
    (runBuilder fetch max_depth start).dependency_graph
    (runBuilder fetch max_depth start).all_packages hknd hnd htgt
  rw [hq] at h1
  have hnodup : (calculate_load_order (runBuilder fetch max_depth start).dependency_graph
      (runBuilder fetch max_depth start).all_packages).Nodup := by simpa using h1
  exact ⟨hnodup, h3, nodup_subset_length_le _ _ hnodup h3⟩

/-- Witness for C10 at the load-order fixture. -/
theorem claim_C10_load_order_wellformed_witness :
    ((calculate_load_order (runBuilder (fixtureFetch diamondRepo) 3 "A").dependency_graph
        (runBuilder (fixtureFetch diamondRepo) 3 "A").all_packages).Nodup) ∧
    (∀ x ∈ calculate_load_order
        (runBuilder (fixtureFetch diamondRepo) 3 "A").dependency_graph
        (runBuilder (fixtureFetch diamondRepo) 3 "A").all_packages,
      x ∈ (runBuilder (fixtureFetch diamondRepo) 3 "A").all_packages) ∧
    (calculate_load_order (runBuilder (fixtureFetch diamondRepo) 3 "A").dependency_graph
        (runBuilder (fixtureFetch diamondRepo) 3 "A").all_packages).length ≤
      (runBuilder (fixtureFetch diamondRepo) 3 "A").all_packages.length :=
  claim_C10_load_order_wellformed (fixtureFetch diamondRepo) 3 "A"

/-- The single-package fixture `{A: []}`: the start package has no
dependencies, so the graph has no edges at all. -/
def lonelyRepo : List (String × List String) := [("A", [])]

/-- C9, counterexample: the claim says a node declaration is emitted
exactly for the packages that appear as a source or target of some
edge.  For start package `A` with fixture `{A: []}` the built graph
has no edges, so `A` is neither a source nor a target, yet the DOT
node block declares `A` (with the start fill attribute). -/
theorem claim_C9_counterexample :
    graphvizDeclaredNames
        (runBuilder (fixtureFetch lonelyRepo) 3 "A").all_packages "A" = ["A"] ∧
    (runBuilder (fixtureFetch lonelyRepo) 3 "A").dependency_graph = [] ∧
    ¬ isEdgeSource ([] : List (String × List (String × String))) "A" ∧
    ¬ isEdgeTarget ([] : List (String × List (String × String))) "A" := by
  refine ⟨by decide, by decide, by decide, by decide⟩

/-- C9, amended: for every builder run (depth bound at least `1`, as
validation enforces), the node block declares the start package first
with the distinct fill attribute and every other recorded package once
as a plain declaration; the declared names are duplicate-free and are
exactly the start package together with the packages appearing as an
edge source or target — the start package is declared even when it is
an endpoint of no edge. -/
theorem claim_C9_node_declarations
    (fetch : String → Except String (List (String × String)))
    (max_depth : Nat) (start : String) (h : 1 ≤ max_depth) :
    (graphvizNodeLines (runBuilder fetch max_depth start).all_packages start
      = dotStartDecl start ::
        ((runBuilder fetch max_depth start).all_packages.filter
          (fun p => p ≠ start)).map dotNodeDecl) ∧
    (graphvizDeclaredNames (runBuilder fetch max_depth start).all_packages start).Nodup ∧
    (∀ x, x ∈ graphvizDeclaredNames
        (runBuilder fetch max_depth start).all_packages start ↔
      (x = start ∨
        isEdgeSource (runBuilder fetch max_depth start).dependency_graph x ∨
        isEdgeTarget (runBuilder fetch max_depth start).dependency_graph x)) := by
  obtain ⟨hnd, hknd, hkeymem, htgt, hchar⟩ := runBuilder_inv fetch max_depth start
  have hstart := runBuilder_start_mem fetch max_depth start h
  refine ⟨rfl, ?_, ?_⟩
  · unfold graphvizDeclaredNames
    rw [List.nodup_cons]
    constructor
    · intro hmem
      have := List.of_mem_filter hmem
      simp at this
    · exact List.Nodup.filter _ hnd
  · intro x
    unfold graphvizDeclaredNames
    constructor
    · intro hx
      rcases List.mem_cons.mp hx with rfl | hx
      · exact Or.inl rfl
      · have hxall : x ∈ (runBuilder fetch max_depth start).all_packages :=
          List.mem_of_mem_filter hx
        rcases hchar x hxall with rfl | hx'
        · exact Or.inl rfl
        · exact Or.inr (Or.inr ((isEdgeTarget_iff_mem _ _).mpr hx'))
    · intro hx
      have hall : x = start ∨ x ∈ (runBuilder fetch max_depth start).all_packages := by
        rcases hx with rfl | hsrc | htgt'
        · exact Or.inl rfl
        · obtain ⟨e, he, heq, _⟩ := hsrc
          exact Or.inr (heq ▸ (hkeymem e he).1)
        · obtain ⟨e, he, dv, hdv, heq⟩ := htgt'
          exact Or.inr (heq ▸ htgt e he dv hdv)
      by_cases hxs : x = start
      · exact List.mem_cons.mpr (Or.inl hxs)
      · rcases hall with rfl | hall
        · exact absurd rfl hxs
        · refine List.mem_cons.mpr (Or.inr (List.mem_filter.mpr ⟨hall, ?_⟩))
          simp [hxs]

/-- Witness for C9 at the load-order fixture with start `A`: the
declared names are duplicate-free, and `B` is declared exactly because
it is an edge endpoint. -/
theorem claim_C9_node_declarations_witness :
    (graphvizDeclaredNames
      (runBuilder (fixtureFetch diamondRepo) 3 "A").all_packages "A").Nodup ∧
    ("B" ∈ graphvizDeclaredNames
        (runBuilder (fixtureFetch diamondRepo) 3 "A").all_packages "A" ↔
      ("B" = "A" ∨
        isEdgeSource (runBuilder (fixtureFetch diamondRepo) 3 "A").dependency_graph "B" ∨
        isEdgeTarget (runBuilder (fixtureFetch diamondRepo) 3 "A").dependency_graph "B")) :=
  ⟨(claim_C9_node_declarations (fixtureFetch diamondRepo) 3 "A" (by omega)).2.1,
   (claim_C9_node_declarations (fixtureFetch diamondRepo) 3 "A" (by omega)).2.2 "B"⟩

